import Mathlib

/-!
Shallow embedding of the remote-inference client
`lm_eval/models/megatronlm.py` of the OpenGPTX `lm-evaluation-harness`,
together with proofs about its request reordering, batching, truncation,
result decoding, stop-sequence handling and retry behaviour.

Token sequences are embedded as `List Nat`, strings as `List Nat` of code
points where only their list structure matters, and floating-point
log-probabilities as rationals (only the selection of which entries are
summed is at stake, never rounding).
-/

/-- Python slicing `l[i:]` for an arbitrary integer start index `i`:
for `i ≥ 0` the first `i` elements are dropped (clamped at the length),
for `i < 0` the start is `max(0, len(l) + i)`, keeping the last `-i`
elements (clamped). -/
def pySliceFrom (l : List α) (i : Int) : List α :=
  if 0 ≤ i then l.drop i.toNat else l.drop (l.length - (-i).toNat)

/-- `get_result(logprobs, is_max_logprobs, ctxlen)` from
`lm_eval/models/megatronlm.py`:

    first_continuation_logprob_index = ctxlen - 1
    continuation_logprobs = logprobs[first_continuation_logprob_index:]
    is_greedy = True
    for i in range(ctxlen, len(is_max_logprobs)):
        if not is_max_logprobs[i]:
            is_greedy = False
            break
    return sum(continuation_logprobs), is_greedy

The `for`/`break` loop is equivalent to requiring every entry of
`is_max_logprobs` from index `ctxlen` on to be true. -/
def get_result (logprobs : List ℚ) (is_max_logprobs : List Bool) (ctxlen : Nat) :
    ℚ × Bool :=
  let continuation_logprobs := pySliceFrom logprobs ((ctxlen : Int) - 1)
  let is_greedy := (is_max_logprobs.drop ctxlen).all (fun b => b)
  (continuation_logprobs.sum, is_greedy)

/-- Per-item input preparation in `MegatronServerLM._loglikelihood_tokens`:
`inp = (context_enc + continuation_enc)[-(self.max_length + 1):]`. -/
def loglik_inp (context_enc continuation_enc : List Nat) (max_length : Nat) :
    List Nat :=
  pySliceFrom (context_enc ++ continuation_enc) (-((max_length : Int) + 1))

/-- Context length computed next to `loglik_inp` in
`MegatronServerLM._loglikelihood_tokens` (Python `int` arithmetic, so the
value may be negative):
`ctxlen = len(context_enc) - max(0, len(context_enc) + len(continuation_enc)
- (self.max_length + 1))`. -/
def loglik_ctxlen (context_enc continuation_enc : List Nat) (max_length : Nat) :
    Int :=
  (context_enc.length : Int) -
    max 0 ((context_enc.length : Int) + (continuation_enc.length : Int) -
      ((max_length : Int) + 1))

/-- The `max_gen_toks` property of `MegatronServerLM`: the constant `256`. -/
def max_gen_toks : Nat := 256

/-- Client construction in `MegatronServerLM.__init__`:
`self._max_length = meglm_metadata["max_length"] - self.max_gen_toks`
(Python `int` arithmetic). -/
def client_max_length (server_max_length : Int) : Int :=
  server_max_length - (max_gen_toks : Int)

/-- Prompt preparation in `MegatronServerLM.greedy_until`:
`inp = context_enc[-(self.max_length - self.max_gen_toks):]`, where
`self.max_length` is `client_max_length` of the server-reported maximum. -/
def gen_prompt (context_enc : List Nat) (server_max_length : Int) : List Nat :=
  pySliceFrom context_enc
    (-(client_max_length server_max_length - (max_gen_toks : Int)))

/-- Modelled from the spec: `utils.Reorderer` is used by `megatronlm.py`
(`lm_eval/utils.py` is not among the provided sources).  Following §4.1 of
the spec, the reorderer tags every element with its original position and
stably sorts the tagged list; `keyLe` is the comparison induced by the
collation key function.  `size` remembers the caller's input length. -/
structure Reorderer (α : Type) where
  size : Nat
  arr : List (Nat × α)

/-- Modelled from the spec: construction of a `Reorderer` from the request
list and the key comparison (spec §4.1: "sorted by key (stable, ...)",
"ties broken by stable original-index order"). -/
def Reorderer.make (xs : List α) (keyLe : α → α → Bool) : Reorderer α :=
  { size := xs.length
    arr := xs.enum.mergeSort (fun p q => keyLe p.2 q.2) }

/-- Modelled from the spec: `get_reordered()` returns the elements in
sorted order, original-position tags removed. -/
def Reorderer.get_reordered (r : Reorderer α) : List α :=
  r.arr.map Prod.snd

/-- Modelled from the spec: `get_original(results)` receives results
aligned with the reordered sequence and realigns them to the caller's
original order.  A position not covered by any result is `none` (the real
implementation asserts full coverage instead). -/
def Reorderer.get_original (r : Reorderer α) (results : List β) : List (Option β) :=
  (List.range r.size).map (fun j =>
    ((r.arr.zip results).find? (fun q => q.1.1 == j)).map (fun q => q.2))

/-- The inner loop of `sameuntil_chunks` in `MegatronServerLM.greedy_until`,
with the mutable `ret`/`lastuntil` of the Python `for` loop made explicit:

    for x in xs:
        if len(ret) >= size or x[1] != lastuntil:
            yield ret, lastuntil
            ret = []
            lastuntil = x[1]
        ret.append(x)
    if ret:
        yield ret, lastuntil
-/
def sameuntil_loop [DecidableEq υ] (size : Nat) (ret : List (α × υ)) (lastuntil : υ) :
    List (α × υ) → List (List (α × υ) × υ)
  | [] => if ret.isEmpty then [] else [(ret, lastuntil)]
  | x :: xs =>
    if size ≤ ret.length ∨ x.2 ≠ lastuntil then
      (ret, lastuntil) :: sameuntil_loop size [x] x.2 xs
    else
      sameuntil_loop size (ret ++ [x]) lastuntil xs

/-- `sameuntil_chunks(xs, size)` from `MegatronServerLM.greedy_until`:
chunks the reordered request list, starting a new chunk when the current
one is full or the `until` attribute (the second component) changes.
The Python generator reads `xs[0][1]` before looping, so it is only ever
called on non-empty `xs`; the empty case is totalised to `[]`. -/
def sameuntil_chunks [DecidableEq υ] (xs : List (α × υ)) (size : Nat) :
    List (List (α × υ) × υ) :=
  match xs with
  | [] => []
  | x :: _ => sameuntil_loop size [] x.2 xs

/-- Python `s.startswith(pre)` on sequences. -/
def startswith [DecidableEq α] : List α → List α → Bool
  | _, [] => true
  | [], _ :: _ => false
  | a :: s, b :: p => if a = b then startswith s p else false

/-- Python `s.removeprefix(pre)` (used in `greedy_until` as
`text.removeprefix(context)`): drop the leading `pre` when `s` starts with
it, otherwise return `s` unchanged. -/
def removeprefixPy [DecidableEq α] (s pre : List α) : List α :=
  if startswith s pre then s.drop pre.length else s

/-- Index of the first occurrence of `t` as a contiguous subsequence of
`s` (`none` when `t` does not occur).  This is the position at which
Python `s.split(t)` makes its first cut. -/
def firstOcc [DecidableEq α] (t : List α) : List α → Option Nat
  | [] => if startswith [] t then some 0 else none
  | a :: s => if startswith (a :: s) t then some 0
      else (firstOcc t s).map (fun j => j + 1)

/-- Python `s.split(t)[0]` for a non-empty separator `t`: the prefix of
`s` before the first occurrence of `t`, or all of `s` when `t` does not
occur. -/
def splitFirstSeg [DecidableEq α] (s t : List α) : List α :=
  match firstOcc t s with
  | some j => s.take j
  | none => s

/-- Result post-processing in `MegatronServerLM.greedy_until`:

    s = text.removeprefix(context)
    for term in until:
        s = s.split(term)[0]
-/
def greedy_result [DecidableEq α] (text context : List α) (until_seqs : List (List α)) :
    List α :=
  until_seqs.foldl splitFirstSeg (removeprefixPy text context)

/-- The post-processing as the spec's words describe it (§4.5 step 6):
strip the echoed context, then cut at the minimum starting index over all
stop sequences that occur in the de-prefixed text; if none occurs, keep
everything. -/
def earliest_cut_result [DecidableEq α] (text context : List α)
    (until_seqs : List (List α)) : List α :=
  let s := removeprefixPy text context
  s.take ((until_seqs.filterMap (fun t => firstOcc t s)).foldr min s.length)

/-- The `ValueError` raised by the Python tuple unpacking
`(primary_until,) = self.tok_encode(until[0])` when the right-hand side
does not have exactly one element. -/
inductive UnpackError
  | wrongArity
  deriving DecidableEq

/-- The parameters `greedy_until` passes to `megatron_completion` for one
chunk (the non-constant ones). -/
structure CompletionCall where
  prompts : List (List Nat)
  max_tokens : Nat
  stop_token : Option Nat
  deriving DecidableEq

/-- The `primary_until` computation in `MegatronServerLM.greedy_until`:

    if until:
        (primary_until,) = self.tok_encode(until[0])
    else:
        primary_until = None
-/
def primary_until_of (tok_encode : σ → List Nat) (until_seqs : List σ) :
    Except UnpackError (Option Nat) :=
  match until_seqs with
  | [] => .ok none
  | u0 :: _ =>
    match tok_encode u0 with
    | [t] => .ok (some t)
    | _ => .error .wrongArity

/-- The dispatch of one generation chunk in `greedy_until`: the
`megatron_completion` call is made only after `primary_until` has been
extracted, with `max_tokens=self.max_gen_toks` and
`stop_token=primary_until`; the unpacking `ValueError` propagates before
any request is sent. -/
def dispatch_gen_call (tok_encode : σ → List Nat) (until_seqs : List σ)
    (inps : List (List Nat)) : Except UnpackError CompletionCall :=
  (primary_until_of tok_encode until_seqs).map
    (fun pu => { prompts := inps, max_tokens := max_gen_toks, stop_token := pu })

/-- A decoded server response body: either a JSON object (its contents
abstracted to a `Nat` payload) or something that is not a `dict`. -/
inductive ResponseBody
  | dict (payload : Nat)
  | notDict
  deriving DecidableEq

/-- A raw HTTP response: status code and decoded body. -/
structure RawResponse where
  status : Nat
  body : ResponseBody
  deriving DecidableEq

/-- The two `raise Exception(...)` branches of
`MegatronServerLM.megatron_query`. -/
inductive QueryError
  | httpError (status : Nat)
  | protocolViolation
  deriving DecidableEq

/-- `MegatronServerLM.megatron_query`, checks in source order:
a non-200 status raises, then a decoded body that is not a `dict` raises
(`Unexpected HTTP response`), otherwise the payload is returned. -/
def megatron_query (resp : RawResponse) : Except QueryError Nat :=
  if resp.status ≠ 200 then .error (.httpError resp.status)
  else
    match resp.body with
    | .dict payload => .ok payload
    | .notDict => .error .protocolViolation

/-- The `while True` retry loop of `MegatronServerLM.megatron_completion`,
made total with explicit fuel.  `responses k` is the raw response the
server produces for the `k`-th attempt (0-based).  Returns the successful
payload (`none` when the fuel runs out while still looping), the number of
attempts made, and the list of back-off sleeps performed (seconds, as
rationals).  The Python `except Exception` catches every failure
`megatron_query` signals, sleeps `backoff_time`, multiplies it by `1.5`
and retries. -/
def retry_loop (responses : Nat → RawResponse) (backoff_time : ℚ) (k : Nat) :
    Nat → Option Nat × Nat × List ℚ
  | 0 => (none, 0, [])
  | fuel + 1 =>
    match megatron_query (responses k) with
    | .ok payload => (some payload, 1, [])
    | .error _ =>
      let rest := retry_loop responses (backoff_time * (3 / 2)) (k + 1) fuel
      (rest.1, rest.2.1 + 1, backoff_time :: rest.2.2)

/-- `MegatronServerLM.megatron_completion`: the retry loop entered with
`backoff_time = 3`. -/
def megatron_completion (responses : Nat → RawResponse) (fuel : Nat) :
    Option Nat × Nat × List ℚ :=
  retry_loop responses 3 0 fuel

/-- A server that always answers 200 with a body that is not a `dict`
(protocol contract violation on every attempt). -/
def always_not_a_dict : Nat → RawResponse :=
  fun _ => { status := 200, body := .notDict }

/-- A server that fails twice with HTTP 500 and then succeeds with
payload `7`. -/
def fails_twice : Nat → RawResponse :=
  fun k => if k < 2 then { status := 500, body := .notDict }
           else { status := 200, body := .dict 7 }

/-- A server whose first response violates the protocol (200 but not a
`dict`) and which then succeeds with payload `5`. -/
def bad_then_good : Nat → RawResponse :=
  fun k => if k = 0 then { status := 200, body := .notDict }
           else { status := 200, body := .dict 5 }

/-- C3 scratch example. -/
example : (get_result [-5, -1, -2] [true, false, true] 1).2 = false := by decide

example : (get_result [-5, -1, -2] [false, true, true] 1).2 = true := by decide

example : (get_result [-5, -1, -2] [true, true, true] 1).1 = -8 := by
  norm_num [get_result, pySliceFrom]

example : loglik_inp [0] [1, 2, 3, 4, 5] 3 = [2, 3, 4, 5] := by decide

example : loglik_ctxlen [0] [1, 2, 3, 4, 5] 3 = -1 := by decide

example : loglik_ctxlen [0, 1, 2, 3] [4, 5] 3 = 2 := by decide

example : gen_prompt [1, 2, 3] 514 = [2, 3] := by decide

example : gen_prompt [1, 2, 3] 512 = [1, 2, 3] := by decide

example : gen_prompt [1, 2, 3] 510 = [3] := by decide

/-- C2: the code (`get_result`) sums `logprobs[ctxlen - 1:]`, which keeps
the entry at context position `ctxlen - 1`; the claim demands the sum of
exactly the last `len(logprobs) - ctxlen` entries (`logprobs[ctxlen:]`).
At `logprobs = [-5, -1, -2]`, `ctxlen = 1` the code returns `-8` while the
claimed value is `-3`. -/
theorem get_result_sums_context_entry :
    (get_result [-5, -1, -2] [true, true, true] 1).1 = -8 ∧
    ([(-5 : ℚ), -1, -2].drop 1).sum = -3 ∧
    (get_result [-5, -1, -2] [true, true, true] 1).1 ≠
      ([(-5 : ℚ), -1, -2].drop 1).sum := by
  refine ⟨?_, ?_, ?_⟩ <;> norm_num [get_result, pySliceFrom]

/-- C3: the `is_greedy` flag returned by `get_result` is true iff every
entry of `is_max_logprobs` at an index `≥ ctxlen` is true; entries at
indices `< ctxlen` never influence it. -/
theorem get_result_is_greedy_iff (logprobs : List ℚ) (is_max_logprobs : List Bool)
    (ctxlen : Nat) :
    (get_result logprobs is_max_logprobs ctxlen).2 = true ↔
      ∀ i, ctxlen ≤ i → ∀ (h : i < is_max_logprobs.length),
        is_max_logprobs[i] = true := by
  simp only [get_result, List.all_eq_true]
  constructor
  · intro hall i hi hlt
    have hj : i - ctxlen < (is_max_logprobs.drop ctxlen).length := by
      rw [List.length_drop]; omega
    have h1 := hall _ (List.getElem_mem hj)
    have h2 : (is_max_logprobs.drop ctxlen)[i - ctxlen]? = is_max_logprobs[i]? := by
      rw [List.getElem?_drop]; congr 1; omega
    rw [List.getElem?_eq_getElem hj, List.getElem?_eq_getElem hlt] at h2
    rw [← Option.some.inj h2]; exact h1
  · intro h b hb
    obtain ⟨j, hj, rfl⟩ := List.mem_iff_getElem.mp hb
    have hlt : ctxlen + j < is_max_logprobs.length := by
      have := hj; rw [List.length_drop] at this; omega
    have h2 : (is_max_logprobs.drop ctxlen)[j]? = is_max_logprobs[ctxlen + j]? :=
      List.getElem?_drop ..
    rw [List.getElem?_eq_getElem hj, List.getElem?_eq_getElem hlt] at h2
    rw [Option.some.inj h2]; exact h (ctxlen + j) (by omega) hlt

/-- C4 (amended): when `C + L > max_length + 1` the dispatched input is,
unconditionally, the last `max_length + 1` tokens of
`context ++ continuation` and the computed context length is exactly
`max_length + 1 - L`; provided additionally `L ≤ max_length + 1`, the
continuation survives intact as the tail of the dispatched input. -/
theorem loglik_truncation_spec (ctx cont : List Nat) (M : Nat)
    (hover : M + 1 < ctx.length + cont.length) :
    loglik_inp ctx cont M = (ctx ++ cont).drop (ctx.length + cont.length - (M + 1)) ∧
    (loglik_inp ctx cont M).length = M + 1 ∧
    loglik_ctxlen ctx cont M = (M : Int) + 1 - (cont.length : Int) ∧
    (cont.length ≤ M + 1 →
      (loglik_inp ctx cont M).drop ((loglik_inp ctx cont M).length - cont.length) =
        cont) := by
  have h1 : loglik_inp ctx cont M =
      (ctx ++ cont).drop (ctx.length + cont.length - (M + 1)) := by
    unfold loglik_inp pySliceFrom
    rw [if_neg (by omega)]
    congr 1
    rw [List.length_append]
    omega
  have h2 : (loglik_inp ctx cont M).length = M + 1 := by
    rw [h1, List.length_drop, List.length_append]
    omega
  refine ⟨h1, h2, ?_, ?_⟩
  · unfold loglik_ctxlen
    rw [max_eq_right (by omega)]
    omega
  · intro hcont
    rw [h2, h1, List.drop_drop]
    rw [show ctx.length + cont.length - (M + 1) + (M + 1 - cont.length) =
      ctx.length from by omega]
    exact List.drop_left ctx cont

/-- C4 counterexample for the claim as stated: with `max_length = 3`,
context `[0]` and continuation `[1, 2, 3, 4, 5]` (so `C + L = 6 > 4`),
the dispatched input is `[2, 3, 4, 5]` and the continuation IS cut by the
truncation, contradicting "the continuation tokens are never cut". -/
theorem loglik_long_continuation_cut :
    3 + 1 < ([0] : List Nat).length + ([1, 2, 3, 4, 5] : List Nat).length ∧
    loglik_inp [0] [1, 2, 3, 4, 5] 3 = [2, 3, 4, 5] ∧
    (loglik_inp [0] [1, 2, 3, 4, 5] 3).drop
        ((loglik_inp [0] [1, 2, 3, 4, 5] 3).length -
          ([1, 2, 3, 4, 5] : List Nat).length) ≠ [1, 2, 3, 4, 5] := by
  refine ⟨by decide, by decide, by decide⟩

/-- C4 witness: concrete instance of `loglik_truncation_spec` with
`max_length = 3`, context `[0, 1, 2, 3]`, continuation `[4, 5]`. -/
theorem loglik_truncation_spec_witness :
    loglik_inp [0, 1, 2, 3] [4, 5] 3 = [2, 3, 4, 5] ∧
    loglik_ctxlen [0, 1, 2, 3] [4, 5] 3 = 2 ∧
    (loglik_inp [0, 1, 2, 3] [4, 5] 3).drop 2 = [4, 5] := by
  have h := loglik_truncation_spec [0, 1, 2, 3] [4, 5] 3 (by decide)
  refine ⟨h.1.trans (by decide), ?_, ?_⟩
  · rw [h.2.2.1]; decide
  · have h4 := h.2.2.2 (by decide)
    rwa [h.2.1] at h4

/-- C10: the prompt `greedy_until` dispatches is the last
`M - 2 * 256` tokens of the encoded context (`M` the server-reported
maximum length): `max_gen_toks` is subtracted once at construction
(`client_max_length`) and a second time at dispatch. -/
theorem gen_prompt_double_subtraction (ctx : List Nat) (M : Nat)
    (h : 2 * 256 < M) :
    gen_prompt ctx (M : Int) = ctx.drop (ctx.length - (M - 2 * 256)) ∧
    (gen_prompt ctx (M : Int)).length = min (M - 2 * 256) ctx.length := by
  have h1 : gen_prompt ctx (M : Int) = ctx.drop (ctx.length - (M - 2 * 256)) := by
    unfold gen_prompt client_max_length max_gen_toks pySliceFrom
    rw [if_neg (by omega)]
    apply congrArg (fun n => List.drop n ctx)
    omega
  refine ⟨h1, ?_⟩
  rw [h1, List.length_drop]
  omega

/-- C10 witness: with server maximum `515` and context `[1, 2, 3, 4, 5]`
the dispatched prompt is the last `3 = 515 - 512` tokens. -/
theorem gen_prompt_double_subtraction_witness :
    gen_prompt [1, 2, 3, 4, 5] (515 : Int) = [3, 4, 5] ∧
    (gen_prompt [1, 2, 3, 4, 5] (515 : Int)).length = 3 := by
  have h := gen_prompt_double_subtraction [1, 2, 3, 4, 5] 515 (by norm_num)
  exact ⟨h.1.trans (by norm_num), h.2.trans (by norm_num)⟩

/-- One unfolding step of `retry_loop` at positive fuel. -/
theorem retry_loop_succ (responses : Nat → RawResponse) (b : ℚ) (k fuel : Nat) :
    retry_loop responses b k (fuel + 1) =
      match megatron_query (responses k) with
      | .ok payload => (some payload, 1, [])
      | .error _ =>
        ((retry_loop responses (b * (3 / 2)) (k + 1) fuel).1,
         (retry_loop responses (b * (3 / 2)) (k + 1) fuel).2.1 + 1,
         b :: (retry_loop responses (b * (3 / 2)) (k + 1) fuel).2.2) := rfl

/-- `retry_loop` on an attempt that fails: it sleeps `b` and recurses with
back-off `b * 1.5`. -/
theorem retry_loop_error_step (responses : Nat → RawResponse) (b : ℚ)
    (k fuel : Nat) (e : QueryError)
    (he : megatron_query (responses k) = .error e) :
    retry_loop responses b k (fuel + 1) =
      ((retry_loop responses (b * (3 / 2)) (k + 1) fuel).1,
       (retry_loop responses (b * (3 / 2)) (k + 1) fuel).2.1 + 1,
       b :: (retry_loop responses (b * (3 / 2)) (k + 1) fuel).2.2) := by
  rw [retry_loop_succ, he]

/-- `retry_loop` on an attempt that succeeds: it returns at once. -/
theorem retry_loop_ok_step (responses : Nat → RawResponse) (b : ℚ)
    (k fuel : Nat) (p : Nat)
    (hok : megatron_query (responses k) = .ok p) :
    retry_loop responses b k (fuel + 1) = (some p, 1, []) := by
  rw [retry_loop_succ, hok]

/-- Helper for C5: the retry loop entered at attempt `start` with current
back-off `b`, facing `N` failures then a success, makes `N + 1` attempts,
returns the success and sleeps `b * 1.5 ^ j` before the `j`-th retry. -/
theorem retry_loop_fails_then_succeeds (responses : Nat → RawResponse) (p : Nat) :
    ∀ (N start : Nat) (b : ℚ),
      (∀ k, k < N → ∃ e, megatron_query (responses (start + k)) = .error e) →
      megatron_query (responses (start + N)) = .ok p →
      retry_loop responses b start (N + 1) =
        (some p, N + 1, (List.range N).map (fun j => b * (3 / 2) ^ j)) := by
  intro N
  induction N with
  | zero =>
    intro start b _ hok
    rw [Nat.add_zero] at hok
    rw [retry_loop_ok_step responses b start 0 p hok]
    simp
  | succ n ih =>
    intro start b hfail hok
    obtain ⟨e, he⟩ := hfail 0 (Nat.succ_pos n)
    rw [Nat.add_zero] at he
    have hrec := ih (start + 1) (b * (3 / 2))
      (fun k hk => by
        have h := hfail (k + 1) (by omega)
        rwa [show start + (k + 1) = start + 1 + k from by omega] at h)
      (by rwa [show start + (n + 1) = start + 1 + n from by omega] at hok)
    rw [retry_loop_error_step responses b start (n + 1) e he, hrec]
    refine Prod.ext rfl (Prod.ext rfl ?_)
    show b :: (List.range n).map (fun j => b * (3 / 2) * (3 / 2) ^ j) =
      (List.range (n + 1)).map (fun j => b * (3 / 2) ^ j)
    rw [List.range_succ_eq_map, List.map_cons, List.map_map]
    have hfun : ((fun j => b * (3 / 2) ^ j) ∘ (fun j => j + 1)) =
        (fun j => b * (3 / 2) * (3 / 2) ^ j) := by
      funext j
      simp only [Function.comp]
      rw [pow_succ]
      ring
    rw [hfun]
    simp

/-- C5: `megatron_completion` facing `N` failures (of any kind) and then a
success performs exactly `N + 1` attempts, returns the successful payload,
and sleeps `3 * 1.5 ^ (k - 1)` seconds before the `k`-th retry (the list
entry at index `k - 1`); by construction it never hands a failure to its
caller (the result component is `some payload` or still-looping `none`,
never an error). -/
theorem megatron_completion_retry_spec (responses : Nat → RawResponse)
    (N : Nat) (p : Nat)
    (hfail : ∀ k, k < N → ∃ e, megatron_query (responses k) = .error e)
    (hok : megatron_query (responses N) = .ok p) :
    megatron_completion responses (N + 1) =
      (some p, N + 1, (List.range N).map (fun k => 3 * (3 / 2) ^ k)) := by
  unfold megatron_completion
  exact retry_loop_fails_then_succeeds responses p N 0 3
    (fun k hk => by simpa using hfail k hk) (by simpa using hok)

/-- C5 witness: a server failing twice with HTTP 500 and then answering
payload `7`: three attempts, result `7`, sleeps `3` and `4.5` seconds. -/
theorem megatron_completion_retry_spec_witness :
    megatron_completion fails_twice 3 = (some 7, 3, [3, 9 / 2]) := by
  have h := megatron_completion_retry_spec fails_twice 2 7
    (fun k hk => ⟨.httpError 500, by interval_cases k <;> rfl⟩) rfl
  rw [show (2 : Nat) + 1 = 3 from rfl] at h
  rw [h]
  norm_num [List.range_succ]

/-- With any fuel left, the retry loop makes at least one attempt. -/
theorem retry_loop_attempts_pos (responses : Nat → RawResponse) (b : ℚ)
    (k fuel : Nat) :
    1 ≤ (retry_loop responses b k (fuel + 1)).2.1 := by
  rw [retry_loop_succ]
  cases megatron_query (responses k) <;> simp

/-- C6 counterexample for the claim as stated: a server whose responses are
always present but structurally wrong (status 200, body not a mapping)
makes `megatron_query` fail with a protocol violation, yet
`megatron_completion` does NOT surface it: with fuel for 3 iterations it
performs 3 attempts (not 1) and returns no failure value at all. -/
theorem protocol_violation_retried :
    megatron_query (always_not_a_dict 0) = .error .protocolViolation ∧
    (megatron_completion always_not_a_dict 3).2.1 = 3 ∧
    (megatron_completion always_not_a_dict 3).2.1 ≠ 1 ∧
    (megatron_completion always_not_a_dict 3).1 = none :=
  ⟨rfl, rfl, by decide, rfl⟩

/-- C6 (amended): a structurally wrong response (status 200, decoded body
not a `dict`) makes `megatron_query` signal `protocolViolation` rather
than return a payload, but `megatron_completion`'s catch-all retry loop
absorbs that failure exactly like a transient one: it keeps the loop
going (the overall result is that of the continued loop), makes at least
a second attempt, and sleeps the `3`-second back-off first. -/
theorem protocol_violation_absorbed_spec (resp : RawResponse)
    (responses : Nat → RawResponse) (fuel : Nat)
    (hstatus : resp.status = 200) (hbody : resp.body = .notDict)
    (h0 : megatron_query (responses 0) = .error .protocolViolation) :
    megatron_query resp = .error .protocolViolation ∧
    (megatron_completion responses (fuel + 2)).1 =
      (retry_loop responses (3 * (3 / 2)) 1 (fuel + 1)).1 ∧
    2 ≤ (megatron_completion responses (fuel + 2)).2.1 ∧
    ∃ sleeps, (megatron_completion responses (fuel + 2)).2.2 = 3 :: sleeps := by
  have h1 : megatron_query resp = .error .protocolViolation := by
    unfold megatron_query
    rw [hstatus, hbody]
    simp
  have hstep := retry_loop_error_step responses 3 0 (fuel + 1)
    .protocolViolation h0
  unfold megatron_completion
  rw [show fuel + 2 = (fuel + 1) + 1 from rfl, hstep]
  refine ⟨h1, rfl, ?_, ⟨_, rfl⟩⟩
  have := retry_loop_attempts_pos responses (3 * (3 / 2)) 1 fuel
  simpa using this

/-- C6 witness: the concrete server `bad_then_good` (first response 200
but not a `dict`) instantiates `protocol_violation_absorbed_spec`. -/
theorem protocol_violation_absorbed_spec_witness :
    megatron_query { status := 200, body := .notDict } =
      .error .protocolViolation ∧
    (megatron_completion bad_then_good (0 + 2)).1 =
      (retry_loop bad_then_good (3 * (3 / 2)) 1 (0 + 1)).1 ∧
    2 ≤ (megatron_completion bad_then_good (0 + 2)).2.1 ∧
    ∃ sleeps, (megatron_completion bad_then_good (0 + 2)).2.2 = 3 :: sleeps :=
  protocol_violation_absorbed_spec { status := 200, body := .notDict }
    bad_then_good 0 rfl rfl rfl

/-- Invariant of the `sameuntil_chunks` loop: with an open chunk `ret`
whose items all carry attribute `lu` and which is within the size limit,
the emitted groups concatenate to `ret ++ xs`, every group is
attribute-homogeneous (labelled with its items' attribute), and no group
exceeds the size limit. -/
theorem sameuntil_loop_invariant {α υ : Type} [DecidableEq υ] (size : Nat)
    (hsize : 1 ≤ size) :
    ∀ (xs ret : List (α × υ)) (lu : υ),
      (∀ p ∈ ret, p.2 = lu) → ret.length ≤ size →
      ((sameuntil_loop size ret lu xs).map Prod.fst).flatten = ret ++ xs ∧
      (∀ g ∈ sameuntil_loop size ret lu xs, ∀ p ∈ g.1, p.2 = g.2) ∧
      (∀ g ∈ sameuntil_loop size ret lu xs, g.1.length ≤ size) := by
  intro xs
  induction xs with
  | nil =>
    intro ret lu hret hlen
    by_cases h : ret.isEmpty
    · rw [List.isEmpty_iff] at h
      subst h
      simp [sameuntil_loop]
    · have h' : ret.isEmpty = false := by
        cases hr : ret.isEmpty
        · rfl
        · exact absurd hr h
      have hunf : sameuntil_loop size ret lu ([] : List (α × υ)) = [(ret, lu)] := by
        rw [sameuntil_loop, h']
        rfl
      refine ⟨?_, ?_, ?_⟩
      · simp [hunf]
      · intro g hg
        rw [hunf, List.mem_singleton] at hg
        subst hg
        exact hret
      · intro g hg
        rw [hunf, List.mem_singleton] at hg
        subst hg
        exact hlen
  | cons x xs ih =>
    intro ret lu hret hlen
    by_cases hc : size ≤ ret.length ∨ x.2 ≠ lu
    · have hunf : sameuntil_loop size ret lu (x :: xs) =
          (ret, lu) :: sameuntil_loop size [x] x.2 xs := by
        rw [sameuntil_loop, if_pos hc]
      obtain ⟨ih1, ih2, ih3⟩ := ih [x] x.2 (by simp) (by simpa using hsize)
      rw [hunf]
      refine ⟨?_, ?_, ?_⟩
      · simp only [List.map_cons, List.flatten_cons, ih1]
        simp
      · intro g hg
        rcases List.mem_cons.mp hg with rfl | hg'
        · exact hret
        · exact ih2 g hg'
      · intro g hg
        rcases List.mem_cons.mp hg with rfl | hg'
        · exact hlen
        · exact ih3 g hg'
    · push_neg at hc
      have hunf : sameuntil_loop size ret lu (x :: xs) =
          sameuntil_loop size (ret ++ [x]) lu xs := by
        rw [sameuntil_loop, if_neg]
        push_neg
        exact hc
      obtain ⟨ih1, ih2, ih3⟩ := ih (ret ++ [x]) lu
        (by
          intro p hp
          rcases List.mem_append.mp hp with hp' | hp'
          · exact hret p hp'
          · rw [List.mem_singleton] at hp'
            subst hp'
            exact hc.2)
        (by
          rw [List.length_append, List.length_singleton]
          omega)
      rw [hunf]
      refine ⟨?_, ih2, ih3⟩
      rw [ih1, List.append_assoc]
      simp

/-- C7: for any positive batch size, `sameuntil_chunks` partitions the
reordered sequence into contiguous groups (their concatenation is the
input), never mixes two different `until` attributes in one group, and
never exceeds the batch size (so a same-attribute run longer than the
size is split); on the spec's example — attributes `A, A, B, A` (as
`0, 0, 1, 0`) with batch size 10 — it yields exactly the groups
`[A, A]`, `[B]`, `[A]`. -/
theorem sameuntil_chunks_spec {α υ : Type} [DecidableEq υ]
    (xs : List (α × υ)) (size : Nat) (hsize : 1 ≤ size) :
    ((sameuntil_chunks xs size).map Prod.fst).flatten = xs ∧
    (∀ g ∈ sameuntil_chunks xs size, ∀ p ∈ g.1, p.2 = g.2) ∧
    (∀ g ∈ sameuntil_chunks xs size, g.1.length ≤ size) ∧
    sameuntil_chunks [((0 : Nat), (0 : Nat)), (1, 0), (2, 1), (3, 0)] 10 =
      [([(0, 0), (1, 0)], 0), ([(2, 1)], 1), ([(3, 0)], 0)] := by
  have main :
      ((sameuntil_chunks xs size).map Prod.fst).flatten = xs ∧
      (∀ g ∈ sameuntil_chunks xs size, ∀ p ∈ g.1, p.2 = g.2) ∧
      (∀ g ∈ sameuntil_chunks xs size, g.1.length ≤ size) := by
    match xs with
    | [] => simp [sameuntil_chunks]
    | x :: rest =>
      have h := sameuntil_loop_invariant size hsize (x :: rest) [] x.2
        (by simp) (by simp)
      simpa [sameuntil_chunks] using h
  exact ⟨main.1, main.2.1, main.2.2, by decide⟩

/-- C7 witness: the theorem applied to the spec's example list with batch
size `10`. -/
theorem sameuntil_chunks_spec_witness :
    ((sameuntil_chunks [((0 : Nat), (0 : Nat)), (1, 0), (2, 1), (3, 0)] 10).map
        Prod.fst).flatten = [((0 : Nat), (0 : Nat)), (1, 0), (2, 1), (3, 0)] ∧
    (∀ g ∈ sameuntil_chunks [((0 : Nat), (0 : Nat)), (1, 0), (2, 1), (3, 0)] 10,
      ∀ p ∈ g.1, p.2 = g.2) ∧
    (∀ g ∈ sameuntil_chunks [((0 : Nat), (0 : Nat)), (1, 0), (2, 1), (3, 0)] 10,
      g.1.length ≤ 10) ∧
    sameuntil_chunks [((0 : Nat), (0 : Nat)), (1, 0), (2, 1), (3, 0)] 10 =
      [([(0, 0), (1, 0)], 0), ([(2, 1)], 1), ([(3, 0)], 0)] :=
  sameuntil_chunks_spec [((0 : Nat), (0 : Nat)), (1, 0), (2, 1), (3, 0)] 10
    (by norm_num)

/-- `primary_until_of` on a non-empty stop-sequence list reduces to the
case analysis on the encoding of the first stop sequence. -/
theorem primary_until_of_cons {σ : Type} (tok_encode : σ → List Nat)
    (u0 : σ) (rest : List σ) :
    primary_until_of tok_encode (u0 :: rest) =
      match tok_encode u0 with
      | [t] => .ok (some t)
      | _ => .error .wrongArity := rfl

/-- C9: for a non-empty stop-sequence list, the completion call is built
iff tokenizing the first stop sequence yields exactly one token id, and
then that id is the dispatched `stop_token`; any other encoding length
aborts with the unpacking error before a `CompletionCall` exists; stop
sequences after the first never influence the dispatched call. -/
theorem dispatch_stop_token_spec {σ : Type} (tok_encode : σ → List Nat)
    (until_seqs : List σ) (u0 : σ) (rest : List σ) (inps : List (List Nat))
    (hcons : until_seqs = u0 :: rest) :
    ((∃ c, dispatch_gen_call tok_encode until_seqs inps = .ok c) ↔
      (tok_encode u0).length = 1) ∧
    (∀ t, tok_encode u0 = [t] →
      dispatch_gen_call tok_encode until_seqs inps =
        .ok { prompts := inps, max_tokens := max_gen_toks,
              stop_token := some t }) ∧
    ((tok_encode u0).length ≠ 1 →
      dispatch_gen_call tok_encode until_seqs inps = .error .wrongArity) ∧
    dispatch_gen_call tok_encode until_seqs inps =
      dispatch_gen_call tok_encode [u0] inps := by
  subst hcons
  have hok_of : ∀ (us : List σ) (t : Nat), tok_encode u0 = [t] →
      dispatch_gen_call tok_encode (u0 :: us) inps =
        .ok { prompts := inps, max_tokens := max_gen_toks,
              stop_token := some t } := by
    intro us t ht
    unfold dispatch_gen_call
    rw [primary_until_of_cons, ht]
    rfl
  have herr_of : ∀ (us : List σ), (tok_encode u0).length ≠ 1 →
      dispatch_gen_call tok_encode (u0 :: us) inps = .error .wrongArity := by
    intro us hlen
    unfold dispatch_gen_call
    rw [primary_until_of_cons]
    match h : tok_encode u0 with
    | [] => rfl
    | [t] =>
      rw [h] at hlen
      simp at hlen
    | a :: b :: ts => rfl
  have hcase : (∃ t, tok_encode u0 = [t]) ∨ (tok_encode u0).length ≠ 1 := by
    match h : tok_encode u0 with
    | [] => exact Or.inr (by simp)
    | [t] => exact Or.inl ⟨t, rfl⟩
    | a :: b :: ts => exact Or.inr (by simp)
  rcases hcase with ⟨t, ht⟩ | hlen
  · have hok := hok_of rest t ht
    have hok1 := hok_of [] t ht
    refine ⟨⟨fun _ => by rw [ht]; rfl, fun _ => ⟨_, hok⟩⟩, ?_, ?_, hok.trans hok1.symm⟩
    · intro t' ht'
      rw [ht] at ht'
      cases ht'
      exact hok
    · intro hlen
      exact absurd (by rw [ht]; rfl) hlen
  · have herr := herr_of rest hlen
    have herr1 := herr_of [] hlen
    refine ⟨⟨?_, fun h1 => absurd h1 hlen⟩, ?_, fun _ => herr,
      herr.trans herr1.symm⟩
    · rintro ⟨c, hc⟩
      rw [herr] at hc
      cases hc
    · intro t' ht'
      rw [ht'] at hlen
      exact absurd rfl hlen

/-- C9 witness: a tokenizer sending stop sequence `0` to the single token
`[42]` and stop sequence `1` to `[1, 2]`: the dispatched call carries
`stop_token = 42` and ignores the second stop sequence. -/
theorem dispatch_stop_token_spec_witness :
    ((∃ c, dispatch_gen_call (fun u => if u = 0 then [42] else [1, 2])
        [0, 1] [] = .ok c) ↔
      ((fun u => if u = 0 then [42] else [1, 2]) 0).length = 1) ∧
    (∀ t, (fun u => if u = 0 then [42] else [1, 2]) 0 = [t] →
      dispatch_gen_call (fun u => if u = 0 then [42] else [1, 2]) [0, 1] [] =
        .ok { prompts := [], max_tokens := max_gen_toks,
              stop_token := some t }) ∧
    (((fun u => if u = 0 then [42] else [1, 2]) 0).length ≠ 1 →
      dispatch_gen_call (fun u => if u = 0 then [42] else [1, 2]) [0, 1] [] =
        .error .wrongArity) ∧
    dispatch_gen_call (fun u => if u = 0 then [42] else [1, 2]) [0, 1] [] =
      dispatch_gen_call (fun u => if u = 0 then [42] else [1, 2]) [0] [] :=
  dispatch_stop_token_spec (fun u : Nat => if u = 0 then [42] else [1, 2])
    [0, 1] 0 [1] [] rfl

/-- A sequence that another sequence starts with is no longer than it. -/
theorem startswith_length_le {α : Type} [DecidableEq α] :
    ∀ (s t : List α), startswith s t = true → t.length ≤ s.length := by
  intro s t
  induction t generalizing s with
  | nil => intro _; simp
  | cons b p ih =>
    intro h
    match s with
    | [] => simp [startswith] at h
    | a :: s' =>
      simp only [startswith] at h
      split at h
      · simpa using ih s' h
      · cases h

/-- Starting with `t` is inherited from a `take` to the full sequence. -/
theorem startswith_of_take {α : Type} [DecidableEq α] :
    ∀ (t l : List α) (m : Nat), startswith (l.take m) t = true →
      startswith l t = true := by
  intro t
  induction t with
  | nil => intro l m _; cases l <;> rfl
  | cons b p ih =>
    intro l m h
    match l, m with
    | [], _ => simp [startswith] at h
    | a :: l', 0 => simp [startswith] at h
    | a :: l', m' + 1 =>
      rw [List.take_succ_cons] at h
      simp only [startswith] at h ⊢
      split at h
      · rw [if_pos (by assumption)]
        exact ih l' m' h
      · cases h

/-- `firstOcc t s = some j` means `t` occurs at `j` and at no earlier
position. -/
theorem firstOcc_spec_some {α : Type} [DecidableEq α] :
    ∀ (s t : List α) (j : Nat), firstOcc t s = some j →
      startswith (s.drop j) t = true ∧
      ∀ i, i < j → startswith (s.drop i) t = false := by
  intro s
  induction s with
  | nil =>
    intro t j h
    simp only [firstOcc] at h
    by_cases hc : startswith ([] : List α) t = true
    · rw [if_pos hc] at h
      cases h
      exact ⟨hc, fun i hi => absurd hi (by omega)⟩
    · rw [if_neg hc] at h
      cases h
  | cons a s' ih =>
    intro t j h
    simp only [firstOcc] at h
    by_cases hc : startswith (a :: s') t = true
    · rw [if_pos hc] at h
      cases h
      exact ⟨hc, fun i hi => absurd hi (by omega)⟩
    · rw [if_neg hc] at h
      cases hfo : firstOcc t s' with
      | none => rw [hfo] at h; cases h
      | some j' =>
        rw [hfo] at h
        simp only [Option.map_some'] at h
        cases h
        obtain ⟨h1, h2⟩ := ih t j' hfo
        refine ⟨by rwa [List.drop_succ_cons], ?_⟩
        intro i hi
        match i with
        | 0 =>
          simp only [List.drop_zero]
          cases hb : startswith (a :: s') t
          · rfl
          · exact absurd hb hc
        | i' + 1 =>
          rw [List.drop_succ_cons]
          exact h2 i' (by omega)

/-- `firstOcc t s = none` means `t` occurs nowhere in `s`. -/
theorem firstOcc_none_all {α : Type} [DecidableEq α] :
    ∀ (s t : List α), firstOcc t s = none →
      ∀ i, startswith (s.drop i) t = false := by
  intro s
  induction s with
  | nil =>
    intro t h i
    simp only [firstOcc] at h
    by_cases hc : startswith ([] : List α) t = true
    · rw [if_pos hc] at h; cases h
    · rw [List.drop_nil]
      cases hb : startswith ([] : List α) t
      · rfl
      · exact absurd hb hc
  | cons a s' ih =>
    intro t h i
    simp only [firstOcc] at h
    by_cases hc : startswith (a :: s') t = true
    · rw [if_pos hc] at h; cases h
    · rw [if_neg hc] at h
      have hfo : firstOcc t s' = none := by
        cases hfo : firstOcc t s'
        · rfl
        · rw [hfo] at h; cases h
      match i with
      | 0 =>
        simp only [List.drop_zero]
        cases hb : startswith (a :: s') t
        · rfl
        · exact absurd hb hc
      | i' + 1 =>
        rw [List.drop_succ_cons]
        exact ih t hfo i'

/-- Conversely, if `t` occurs nowhere in `s` then `firstOcc` finds
nothing. -/
theorem all_firstOcc_none {α : Type} [DecidableEq α] :
    ∀ (s t : List α), (∀ i, startswith (s.drop i) t = false) →
      firstOcc t s = none := by
  intro s
  induction s with
  | nil =>
    intro t h
    simp only [firstOcc]
    rw [if_neg]
    have := h 0
    rw [List.drop_nil] at this
    simp [this]
  | cons a s' ih =>
    intro t h
    simp only [firstOcc]
    rw [if_neg (by have := h 0; simp only [List.drop_zero] at this; simp [this])]
    rw [ih t (fun i => by have := h (i + 1); rwa [List.drop_succ_cons] at this)]
    rfl

/-- A found occurrence index never exceeds the length. -/
theorem firstOcc_le {α : Type} [DecidableEq α] :
    ∀ (s t : List α) (j : Nat), firstOcc t s = some j → j ≤ s.length := by
  intro s
  induction s with
  | nil =>
    intro t j h
    simp only [firstOcc] at h
    by_cases hc : startswith ([] : List α) t = true
    · rw [if_pos hc] at h; cases h; simp
    · rw [if_neg hc] at h; cases h
  | cons a s' ih =>
    intro t j h
    simp only [firstOcc] at h
    by_cases hc : startswith (a :: s') t = true
    · rw [if_pos hc] at h; cases h; simp
    · rw [if_neg hc] at h
      cases hfo : firstOcc t s' with
      | none => rw [hfo] at h; cases h
      | some j' =>
        rw [hfo] at h
        simp only [Option.map_some'] at h
        cases h
        have := ih t j' hfo
        simp only [List.length_cons]
        omega

/-- `splitFirstSeg` always returns an initial segment of its input. -/
theorem splitFirstSeg_take {α : Type} [DecidableEq α] (s t : List α) :
    ∃ k, splitFirstSeg s t = s.take k := by
  unfold splitFirstSeg
  match hfo : firstOcc t s with
  | some j => exact ⟨j, rfl⟩
  | none => exact ⟨s.length, (List.take_length s).symm⟩

/-- After cutting at the first occurrence of `t`, no occurrence of a
non-empty `t` remains. -/
theorem splitFirstSeg_free {α : Type} [DecidableEq α] (s t : List α)
    (ht : t ≠ []) : firstOcc t (splitFirstSeg s t) = none := by
  unfold splitFirstSeg
  match hfo : firstOcc t s with
  | none => exact hfo
  | some j =>
    obtain ⟨h1, h2⟩ := firstOcc_spec_some s t j hfo
    apply all_firstOcc_none
    intro i
    cases hocc : startswith ((s.take j).drop i) t with
    | false => rfl
    | true =>
      exfalso
      rw [List.drop_take] at hocc
      have hw := startswith_of_take t (s.drop i) (j - i) hocc
      have hij : ¬ i < j := fun hlt => by
        rw [h2 i hlt] at hw
        cases hw
      have hlen := startswith_length_le _ t hocc
      rw [List.length_take] at hlen
      have hzero : t.length = 0 := by omega
      exact ht (List.length_eq_zero.mp hzero)

/-- Absence of occurrences is preserved when passing to an initial
segment. -/
theorem firstOcc_none_take {α : Type} [DecidableEq α] (s t : List α) (m : Nat)
    (h : firstOcc t s = none) : firstOcc t (s.take m) = none := by
  apply all_firstOcc_none
  intro i
  cases hocc : startswith ((s.take m).drop i) t with
  | false => rfl
  | true =>
    exfalso
    rw [List.drop_take] at hocc
    have hw := startswith_of_take t (s.drop i) (m - i) hocc
    rw [firstOcc_none_all s t h i] at hw
    cases hw

/-- Folding `splitFirstSeg` over any list of separators yields an
initial segment of the starting sequence. -/
theorem foldl_splitFirstSeg_take {α : Type} [DecidableEq α] :
    ∀ (us : List (List α)) (s : List α),
      ∃ k, us.foldl splitFirstSeg s = s.take k := by
  intro us
  induction us with
  | nil => intro s; exact ⟨s.length, by simp⟩
  | cons u us' ih =>
    intro s
    obtain ⟨k1, hk1⟩ := splitFirstSeg_take s u
    obtain ⟨k2, hk2⟩ := ih (splitFirstSeg s u)
    exact ⟨min k2 k1, by rw [List.foldl_cons, hk2, hk1, List.take_take]⟩

/-- Folding `splitFirstSeg` cannot reintroduce an occurrence. -/
theorem foldl_splitFirstSeg_none {α : Type} [DecidableEq α] :
    ∀ (us : List (List α)) (s t : List α), firstOcc t s = none →
      firstOcc t (us.foldl splitFirstSeg s) = none := by
  intro us
  induction us with
  | nil => intro s t h; simpa using h
  | cons u us' ih =>
    intro s t h
    rw [List.foldl_cons]
    apply ih
    obtain ⟨k, hk⟩ := splitFirstSeg_take s u
    rw [hk]
    exact firstOcc_none_take s t k h

/-- No separator of the fold occurs in the final result (all separators
non-empty). -/
theorem foldl_splitFirstSeg_all_none {α : Type} [DecidableEq α] :
    ∀ (us : List (List α)) (s : List α), ([] : List α) ∉ us →
      ∀ t ∈ us, firstOcc t (us.foldl splitFirstSeg s) = none := by
  intro us
  induction us with
  | nil => intro s _ t ht; cases ht
  | cons u us' ih =>
    intro s hne t ht
    rw [List.foldl_cons]
    rcases List.mem_cons.mp ht with rfl | ht'
    · exact foldl_splitFirstSeg_none us' (splitFirstSeg s t) t
        (splitFirstSeg_free s t (fun he => hne (he ▸ List.mem_cons_self t us')))
    · exact ih (splitFirstSeg s u) (fun hmem => hne (List.mem_cons_of_mem u hmem))
        t ht'

/-- For a single stop sequence the sequential cut and the spec's
earliest-cut rule agree. -/
theorem greedy_result_single {α : Type} [DecidableEq α]
    (text context t : List α) :
    greedy_result text context [t] = earliest_cut_result text context [t] := by
  unfold greedy_result earliest_cut_result
  rw [List.foldl_cons, List.foldl_nil]
  unfold splitFirstSeg
  match hfo : firstOcc t (removeprefixPy text context) with
  | none =>
    simp [List.filterMap_cons, hfo]
  | some j =>
    have hj := firstOcc_le (removeprefixPy text context) t j hfo
    simp only [List.filterMap_cons, hfo, List.filterMap_nil, List.foldr_cons,
      List.foldr_nil]
    rw [min_eq_left hj]

/-- C8 counterexample for the claim as stated: de-prefixed text
`[0, 1, 2, 3, 4]` with stop sequences `[2]` and `[1, 2, 3]`: the first
occurrence of `[1, 2, 3]` starts at index 1 (the minimum starting index),
so the claimed earliest-cut result is `[0]`, but the code cuts
sequentially and returns `[0, 1]`. -/
theorem greedy_result_not_earliest_cut :
    greedy_result [0, 1, 2, 3, 4] ([] : List Nat) [[2], [1, 2, 3]] = [0, 1] ∧
    earliest_cut_result [0, 1, 2, 3, 4] ([] : List Nat) [[2], [1, 2, 3]] = [0] ∧
    greedy_result [0, 1, 2, 3, 4] ([] : List Nat) [[2], [1, 2, 3]] ≠
      earliest_cut_result [0, 1, 2, 3, 4] ([] : List Nat) [[2], [1, 2, 3]] := by
  refine ⟨by decide, by decide, by decide⟩

/-- C8 (amended): the produced result is the de-prefixed text truncated
once per stop sequence in configured order, each cut at the first
occurrence within the already-truncated text.  Consequently the result is
an initial segment of the de-prefixed text in which no (non-empty) stop
sequence occurs, and for a single stop sequence it coincides with the
spec's earliest-cut rule; with several stop sequences a later-listed one
whose occurrence extends past an earlier cut does not shorten the result
further. -/
theorem greedy_result_spec {α : Type} [DecidableEq α] (text context : List α)
    (until_seqs : List (List α)) (hne : ([] : List α) ∉ until_seqs) :
    (∃ k, greedy_result text context until_seqs =
      (removeprefixPy text context).take k) ∧
    (∀ t ∈ until_seqs,
      firstOcc t (greedy_result text context until_seqs) = none) ∧
    (∀ t, until_seqs = [t] →
      greedy_result text context until_seqs =
        earliest_cut_result text context until_seqs) := by
  refine ⟨foldl_splitFirstSeg_take until_seqs (removeprefixPy text context),
    foldl_splitFirstSeg_all_none until_seqs (removeprefixPy text context) hne,
    ?_⟩
  intro t ht
  subst ht
  exact greedy_result_single text context t

/-- C8 witness: the amended theorem applied to text `[7, 0, 1, 2, 3]`
echoing context `[7]`, with stop sequences `[2]` and `[1, 2, 3]`. -/
theorem greedy_result_spec_witness :
    (∃ k, greedy_result [7, 0, 1, 2, 3] [7] [[2], [1, 2, 3]] =
      (removeprefixPy [7, 0, 1, 2, 3] [7]).take k) ∧
    (∀ t ∈ [[2], [(1 : Nat), 2, 3]],
      firstOcc t (greedy_result [7, 0, 1, 2, 3] [7] [[2], [1, 2, 3]]) = none) ∧
    (∀ t, [[2], [(1 : Nat), 2, 3]] = [t] →
      greedy_result [7, 0, 1, 2, 3] [7] [[2], [1, 2, 3]] =
        earliest_cut_result [7, 0, 1, 2, 3] [7] [[2], [1, 2, 3]]) :=
  greedy_result_spec [7, 0, 1, 2, 3] [7] [[2], [1, 2, 3]] (by decide)

/-- Zipping a list with its own image lists each element with its image. -/
theorem zip_self_map {γ δ : Type} (g : γ → δ) :
    ∀ (l : List γ), l.zip (l.map g) = l.map (fun a => (a, g a)) := by
  intro l
  induction l with
  | nil => rfl
  | cons a l ih =>
    rw [List.map_cons, List.zip_cons_cons, ih, List.map_cons]

/-- In a list of index-tagged values with pairwise-distinct indices,
`find?` on an index present in the list returns exactly its pair. -/
theorem find?_eq_of_nodup_keys {γ : Type} :
    ∀ (l : List (Nat × γ)) (j : Nat) (x : γ),
      (l.map Prod.fst).Nodup → (j, x) ∈ l →
      l.find? (fun p => p.1 == j) = some (j, x) := by
  intro l
  induction l with
  | nil => intro j x _ hm; cases hm
  | cons hd tl ih =>
    intro j x hnd hm
    rw [List.map_cons, List.nodup_cons] at hnd
    obtain ⟨hnotin, hnd'⟩ := hnd
    by_cases hij : hd.1 = j
    · have hfind : List.find? (fun p => p.1 == j) (hd :: tl) = some hd :=
        List.find?_cons_of_pos _ (by simp [hij])
      rcases List.mem_cons.mp hm with heq | hm'
      · rw [hfind, ← heq]
      · exact absurd (by rw [hij]; exact List.mem_map_of_mem Prod.fst hm') hnotin
    · rw [List.find?_cons_of_neg _ (by simp [hij])]
      apply ih j x hnd'
      rcases List.mem_cons.mp hm with heq | hm'
      · exact absurd (by rw [← heq]) hij
      · exact hm'

/-- C1: the reorder / restore-order round trip.  For every request list,
every key comparison (so in particular both the log-likelihood collation
key and the generation collation key, ties and duplicate keys included)
and every per-item processing function `f`, restoring the order of the
results computed from the reordered list yields exactly the per-request
results in the caller's original order — same length, each result at the
position of its originating request, nothing dropped or duplicated. -/
theorem reorderer_round_trip {α β : Type} (xs : List α) (keyLe : α → α → Bool)
    (f : α → β) :
    (Reorderer.make xs keyLe).get_original
        (((Reorderer.make xs keyLe).get_reordered).map f) =
      xs.map (fun a => some (f a)) := by
  unfold Reorderer.make Reorderer.get_reordered Reorderer.get_original
  set arr := xs.enum.mergeSort (fun p q => keyLe p.2 q.2) with harr
  have hperm : List.Perm arr xs.enum := List.mergeSort_perm _ _
  have hnodup : (arr.map Prod.fst).Nodup := by
    have hp : List.Perm (arr.map Prod.fst) (xs.enum.map Prod.fst) := hperm.map _
    rw [List.enum_map_fst] at hp
    exact hp.nodup_iff.mpr (List.nodup_range xs.length)
  apply List.ext_getElem
  · simp
  · intro i h1 h2
    have hx : i < xs.length := by simpa using h2
    simp only [List.getElem_map, List.getElem_range]
    rw [List.map_map, zip_self_map, List.find?_map]
    have hmem : (i, xs[i]) ∈ arr := hperm.mem_iff.mpr (by
      rw [List.mk_mem_enum_iff_getElem?]
      exact List.getElem?_eq_getElem hx)
    rw [show ((fun q : (Nat × α) × β => q.1.1 == i) ∘
        (fun p : Nat × α => (p, (f ∘ Prod.snd) p))) =
        (fun p : Nat × α => p.1 == i) from rfl]
    rw [find?_eq_of_nodup_keys arr i xs[i] hnodup hmem]
    rfl
